import Mathlib

/-!
Verification development for the JSON-LD context-processing core:
the context merge algorithm (`src/context/merge.rs`) and the reverse
branch of term-definition creation
(`src/context/create_term_def/reverse.rs`).

The Rust code is shallowly embedded: JSON trees become an inductive
`Json`; the active context becomes the inductive `Context`; the
asynchronous, stateful merge loop becomes an explicit state-passing
function with a fuel parameter bounding the (in the source, unbounded)
recursion into remote contexts.  External collaborators that the core
only consumes (the remote-document loader, IRI reference resolution,
IRI expansion, the keyword-shape and IRI classifiers, and the
context-definition handler for object entries, whose module
`merge/ctx_def.rs` is not part of the given sources) are parameters
gathered in an `Env` structure.
-/

namespace JsonLd

/-- JSON value tree, mirroring `serde_json::Value` (the number payload is
irrelevant to the algorithms and kept as an integer; objects are
association lists looked up by first match). -/
inductive Json where
  | null
  | bool (b : Bool)
  | num (n : Int)
  | str (s : String)
  | arr (xs : List Json)
  | obj (members : List (String × Json))

/-- First-match lookup in an association list (models map `get`). -/
def alistGet {α : Type} : List (String × α) → String → Option α
  | [], _ => none
  | (k, v) :: t, key => if k = key then some v else alistGet t key

/-- Insert-or-replace in an association list (models map `insert`,
which replaces any prior mapping for the key). -/
def alistInsert {α : Type} : List (String × α) → String → α → List (String × α)
  | [], key, v => [(key, v)]
  | (k, w) :: t, key, v => if k = key then (key, v) :: t else (k, w) :: alistInsert t key v

/-- `Value::get` on a JSON value: member lookup on objects, `none` on
every other shape (mirrors `serde_json::Value::get`). -/
def Json.get (j : Json) (key : String) : Option Json :=
  match j with
  | .obj m => alistGet m key
  | _ => none

/-- The error codes of `crate::error::ErrorCode` that this core can
produce (the `anyhow` diagnostic payload attached via `and_source` is
dropped by the embedding). -/
inductive ErrorCode where
  | uncategorized
  | invalidLocalContext
  | invalidContextNullification
  | contextOverflow
  | loadingRemoteContextFailed
  | invalidRemoteContext
  | invalidReverseProperty
  | invalidIriMapping
  | invalidContainerMapping
deriving DecidableEq

/-- `crate::json::Nullable`: a value or an explicit `null`. -/
inductive Nullable (α : Type) where
  | null
  | value (val : α)
deriving DecidableEq

/-- Functorial map on `Nullable` (mirrors `Nullable::map`). -/
def Nullable.map {α β : Type} (f : α → β) : Nullable α → Nullable β
  | .null => .null
  | .value v => .value (f v)

/-- The recognized container kinds
(`crate::context::definition::ContainerItem`). -/
inductive ContainerItem where
  | set
  | index
  | list
  | language
  | type
  | id
  | graph
deriving DecidableEq

/-- Modelled from the spec: `Container`
(`crate::context::definition::Container`, whose source file is not part
of the given sources) is a small enumerated set of container items. -/
structure Container where
  items : List ContainerItem
deriving DecidableEq

/-- Modelled from the spec: `get_single_item` extracts the lone item
when the container is a singleton. -/
def Container.get_single_item (c : Container) : Option ContainerItem :=
  match c.items with
  | [x] => some x
  | _ => none

/-- Modelled from the spec: the keyword string of each container item,
used by the wire-level parse. -/
def container_item_of_string (s : String) : Option ContainerItem :=
  if s = "@set" then some .set
  else if s = "@index" then some .index
  else if s = "@list" then some .list
  else if s = "@language" then some .language
  else if s = "@type" then some .type
  else if s = "@id" then some .id
  else if s = "@graph" then some .graph
  else none

/-- Modelled from the spec: the fallible conversion
`Nullable<Container>::try_from(&Value)` (in the definition module, not
part of the given sources).  It parses a wire-level value — `null`, a
single keyword string, or a non-empty array of keyword strings — and
fails (`none`, which the caller turns into `InvalidContainerMapping`)
on any unrecognized shape. -/
def container_try_from : Json → Option (Nullable Container)
  | .null => some .null
  | .str s => (container_item_of_string s).map (fun i => .value ⟨[i]⟩)
  | .arr xs =>
    match xs.mapM (fun j => match j with | Json.str s => container_item_of_string s | _ => none) with
    | some items => if items.isEmpty then none else some (.value ⟨items⟩)
    | none => none
  | _ => none

/-- Modelled from the spec: the immutable `TermDefinition` record (its
source file is not part of the given sources).  Only the fields this
core reads or writes are kept: the identifier mapping, the reverse
flag, the container mapping, and the protected flag (consulted by
`has_protected_term_definition`). -/
structure TermDefinition where
  iri : Option String
  reverse : Bool
  container : Option (Nullable Container)
  protectedFlag : Bool
deriving DecidableEq

/-- Modelled from the spec: the staged `DefinitionBuilder` accumulating
the fields of exactly one `TermDefinition` before the commit. -/
structure DefinitionBuilder where
  iri : Option String := none
  reverse : Bool := false
  container : Option (Nullable Container) := none
  protectedFlag : Bool := false
deriving DecidableEq

/-- Builder method `set_iri`. -/
def DefinitionBuilder.set_iri (b : DefinitionBuilder) (s : String) : DefinitionBuilder :=
  { b with iri := some s }

/-- Builder method `set_reverse`. -/
def DefinitionBuilder.set_reverse (b : DefinitionBuilder) (r : Bool) : DefinitionBuilder :=
  { b with reverse := r }

/-- Builder method `set_container`. -/
def DefinitionBuilder.set_container (b : DefinitionBuilder) (c : Nullable Container) : DefinitionBuilder :=
  { b with container := some c }

/-- Builder method `build`, the sole path to a `TermDefinition`. -/
def DefinitionBuilder.build (b : DefinitionBuilder) : TermDefinition :=
  ⟨b.iri, b.reverse, b.container, b.protectedFlag⟩

/-- The active context (`crate::context::Context`): an
insertion-ordered mapping from term to `Nullable<TermDefinition>` plus
an optional boxed previous context. -/
inductive Context where
  | mk (term_definitions : List (String × Nullable TermDefinition))
       (previous_context : Option Context)

/-- Field accessor for `term_definitions`. -/
def Context.term_definitions : Context → List (String × Nullable TermDefinition)
  | .mk t _ => t

/-- Field accessor for `previous_context`. -/
def Context.previous_context : Context → Option Context
  | .mk _ p => p

/-- `Context::new()`: a newly-initialized empty active context. -/
def Context.new : Context := .mk [] none

/-- `Context::has_previous_context()`. -/
def Context.has_previous_context (c : Context) : Bool :=
  c.previous_context.isSome

/-- `Context::has_protected_term_definition()`: true when any installed
definition is flagged protected (modelled from the spec; the Context
methods live outside the given sources). -/
def Context.has_protected_term_definition (c : Context) : Bool :=
  c.term_definitions.any fun td =>
    match td.2 with
    | .value d => d.protectedFlag
    | .null => false

/-- The per-call mutable state threaded by reference through the merge
recursion: the remote-document cache (`remote_contexts_cache`,
identifier to fetched document) plus an instrumentation log recording,
in order, every identifier for which the external loader was actually
invoked. -/
structure LoadState where
  cache : List (String × Json)
  load_log : List String

/-- The external collaborators and configuration consumed by the core,
gathered as parameters of the embedding:

* `max_remote_contexts` and the overflow guard: `processor.rs` is not
  part of the given sources; modelled from the spec, the string branch
  rejects with `ContextOverflow` exactly when entering one more remote
  context would exceed this configured maximum, so the guard predicate
  used at the call site holds exactly when the current visited count is
  still within the limit.
* `resolve_iri ref base`: reference resolution against a base
  identifier (the external `iri_string` collaborator); `none` models a
  malformed reference (`Uncategorized`).
* `load iri`: the remote document loader; the returned JSON is the
  fetched document of the `RemoteDocument`; `none` models a transport
  failure (`LoadingRemoteContextFailed`).
* `has_form_of_keyword`: the keyword-shape classifier
  (`crate::syntax`, not part of the given sources).
* `is_absolute_ref_or_blank_node_ident`: the identifier classifier
  (`crate::iri`, not part of the given sources).
* `expand_iri active local defined vocab s`: the external IRI
  expansion, which may install definitions (it receives and returns the
  active context and the defined map) and returns `none` for an
  explicit no-value.
* `ctx_def`: `process_context_definition` (module `merge/ctx_def.rs`,
  not part of the given sources); per the spec it consumes the original
  active context, the visited set, the propagate flag, the running
  result and one local-context object with its base, and returns an
  updated result (and visited set) or a typed failure, possibly
  touching the shared cache. -/
structure Env where
  max_remote_contexts : Nat
  resolve_iri : String → String → Option String
  load : String → Option Json
  has_form_of_keyword : String → Bool
  is_absolute_ref_or_blank_node_ident : String → Bool
  expand_iri : Context → List (String × Json) → List (String × Bool) → Bool → String →
    Except ErrorCode (Context × List (String × Bool) × Option String)
  ctx_def : Context → List String → Bool → Context → List (String × Json) → String →
    LoadState → (Except ErrorCode (Context × List String)) × LoadState

/-- Errors of the merge run: a typed `ErrorCode`, or exhaustion of the
fuel parameter (a model artifact: the source recursion into remote
contexts is unbounded, so the embedding bounds it explicitly). -/
inductive JoinError where
  | code (c : ErrorCode)
  | out_of_fuel
deriving DecidableEq

/-- Optional parameters of the context processing algorithm
(`OptionalParams` in `merge.rs`), with the same defaults. -/
structure OptionalParams where
  remote_contexts : List String := []
  override_protected : Bool := false
  propagate : Bool := true

/-- Step 2 of `join_value_impl` (merge.rs lines 139-143): read a
`@propagate` entry of the local context value; a boolean value replaces
the inherited flag, anything else (non-boolean value, absent entry, or
a non-object local context) keeps the inherited flag, without error. -/
def get_propagate (local_context : Json) (propagate : Bool) : Bool :=
  match local_context.get "@propagate" with
  | some (.bool b) => b
  | _ => propagate

/-- Modelled from the spec: `crate::json::to_ref_array` (not part of
the given sources) normalizes the local context value to a sequence of
entries — an array yields its elements, any other value a one-element
sequence (step 4 of the algorithm). -/
def to_ref_array (v : Json) : List Json :=
  match v with
  | .arr xs => xs
  | v => [v]

/-- `HashSet::insert` on the visited set of remote-context identifiers
(set semantics over a list: append when absent). -/
def rc_insert (iri : String) (rc : List String) : List String :=
  if iri ∈ rc then rc else rc ++ [iri]

/-- `process_single_null` (merge.rs lines 202-221), steps 5.1.1-5.1.2:
fail with `InvalidContextNullification` when overriding is not allowed
and the original active context holds a protected term definition;
otherwise replace the running result with a newly-initialized context,
chaining the just-replaced result as its previous context when
propagate is false. -/
def process_single_null (active_context : Context) (override_protected propagate : Bool)
    (result : Context) : Except ErrorCode Context :=
  if !override_protected && active_context.has_protected_term_definition then
    .error .invalidContextNullification
  else
    .ok (.mk [] (if propagate then none else some result))

/-- Steps 5.2.1-5.2.5 of `process_single_string` (merge.rs lines
236-278): resolve the string entry against the base, apply the
remote-context overflow guard, record the identifier as visited, fetch
the document (reusing the per-call cache when the identifier was
already dereferenced, otherwise invoking the external loader and
caching the result, logged in `load_log`), and extract its `@context`
member.  On success it returns that member, the resolved identifier
(the new base), and the updated visited set; the recursion of step
5.2.6 is performed by the caller. -/
def process_single_string_step (env : Env) (rc : List String) (s base : String)
    (st : LoadState) : (Except ErrorCode (Json × String × List String)) × LoadState :=
  match env.resolve_iri s base with
  | none => (.error .uncategorized, st)
  | some iri =>
    if rc.length < env.max_remote_contexts then
      let rc' := rc_insert iri rc
      match alistGet st.cache iri with
      | some doc =>
        match doc.get "@context" with
        | some c => (.ok (c, iri, rc'), st)
        | none => (.error .invalidRemoteContext, st)
      | none =>
        match env.load iri with
        | none => (.error .loadingRemoteContextFailed, st)
        | some doc =>
          let st' : LoadState := ⟨st.cache ++ [(iri, doc)], st.load_log ++ [iri]⟩
          match doc.get "@context" with
          | some c => (.ok (c, iri, rc'), st')
          | none => (.error .invalidRemoteContext, st')
    else
      (.error .contextOverflow, st)

/-- The entry loop of `join_value_impl` (merge.rs lines 151-195, step
5), over the already-normalized entry sequence.  The running result,
the visited set and the shared cache state are threaded left-to-right
through the entries; the original active context of the call is kept
for the null branch and the object branch.  A string entry recurses
into the full algorithm (steps 1-4 inlined: clone the running result,
read `@propagate` from the fetched value, apply step 3, normalize) on
the extracted `@context` value, with the fetched identifier as new
base, a copy of the grown visited set (whose further growth inside the
recursion is discarded, as in the source, where the recursion receives
a clone), and the shared cache.  The fuel parameter decreases at every
nesting level and models the unbounded recursion of the source. -/
def join_entries (env : Env) :
    Nat → List Json → Context → String → Bool → Bool → Context → List String →
    LoadState → (Except JoinError (Context × List String)) × LoadState
  | 0, _, _, _, _, _, _, _, st => (.error .out_of_fuel, st)
  | _ + 1, [], _, _, _, _, result, rc, st => (.ok (result, rc), st)
  | fuel + 1, c :: rest, active_context, base, override_protected, propagate, result, rc, st =>
    match c with
    | .null =>
      match process_single_null active_context override_protected propagate result with
      | .error e => (.error (.code e), st)
      | .ok r =>
        join_entries env fuel rest active_context base override_protected propagate r rc st
    | .str s =>
      match process_single_string_step env rc s base st with
      | (.error e, st') => (.error (.code e), st')
      | (.ok (inner, iri, rc'), st') =>
        match join_entries env fuel (to_ref_array inner) result iri override_protected
            (get_propagate inner propagate)
            (if !(get_propagate inner propagate) && result.has_previous_context then
              Context.mk result.term_definitions (some result)
            else result)
            rc' st' with
        | (.error e, st'') => (.error e, st'')
        | (.ok (r', _), st'') =>
          join_entries env fuel rest active_context base override_protected propagate r' rc' st''
    | .obj m =>
      match env.ctx_def active_context rc propagate result m base st with
      | (.error e, st') => (.error (.code e), st')
      | (.ok (r', rc'), st') =>
        join_entries env fuel rest active_context base override_protected propagate r' rc' st'
    | _ => (.error (.code .invalidLocalContext), st)

/-- `join_value_impl` (merge.rs lines 122-199): step 1 clones the
active context into the running result, step 2 reads `@propagate`,
step 3 chains the pre-merge active context as previous context when
propagate is false and the result already has one, step 4 normalizes,
step 5 runs the entry loop. -/
def join_value_impl (env : Env) (fuel : Nat) (active_context : Context)
    (local_context : Json) (base : String) (remote_contexts : List String)
    (override_protected propagate : Bool) (st : LoadState) :
    (Except JoinError (Context × List String)) × LoadState :=
  let propagate := get_propagate local_context propagate
  let result := if !propagate && active_context.has_previous_context then
      Context.mk active_context.term_definitions (some active_context)
    else active_context
  join_entries env fuel (to_ref_array local_context) active_context base override_protected
    propagate result remote_contexts st

/-- `join_value` (merge.rs lines 67-89): the public wrapper, starting
from the optional parameters and a default (empty) cache, returning
only the new context. -/
def join_value (env : Env) (fuel : Nat) (active_context : Context) (local_context : Json)
    (base : String) (optional : OptionalParams) : Except JoinError Context :=
  ((join_value_impl env fuel active_context local_context base optional.remote_contexts
    optional.override_protected optional.propagate ⟨[], []⟩).1).map Prod.fst

/-- `process_conatiner` (reverse.rs lines 90-115), step 14.5: when the
entry value carries an `@container` member, parse it (failure becomes
`InvalidContainerMapping`); accept only the null mapping, a singleton
`Set` or a singleton `Index`, storing the parsed value verbatim on the
builder, and reject anything else with `InvalidReverseProperty`. -/
def process_conatiner (value : List (String × Json)) (definition : DefinitionBuilder) :
    Except ErrorCode DefinitionBuilder :=
  match alistGet value "@container" with
  | none => .ok definition
  | some c =>
    match container_try_from c with
    | none => .error .invalidContainerMapping
    | some container =>
      match container.map Container.get_single_item with
      | .null => .ok (definition.set_container container)
      | .value (some .set) => .ok (definition.set_container container)
      | .value (some .index) => .ok (definition.set_container container)
      | _ => .error .invalidReverseProperty

/-- Steps 14.6-14.7 of `run_for_reverse` (reverse.rs lines 76-86): set
the reverse flag, build the definition, install it into the active
context under the term (replacing any prior mapping), and flip the
defined-map entry of the term to `true`.  The `expect` on the
defined-map entry is modelled by `none`: when the term has no
defined-map entry the source panics instead of returning a typed
error. -/
def run_for_reverse_commit (active_context : Context) (term : String)
    (defined : List (String × Bool)) (definition : DefinitionBuilder) :
    Option (Except ErrorCode (Context × List (String × Bool))) :=
  let definition := definition.set_reverse true
  match alistGet defined term with
  | none => none
  | some _ =>
    some (.ok
      (Context.mk
        (alistInsert active_context.term_definitions term (.value definition.build))
        active_context.previous_context,
      alistInsert defined term true))

/-- `run_for_reverse` (reverse.rs lines 27-87), step 14 of create term
definition: reject co-occurring `@id`/`@nest` entries; require a string
`@reverse` value; silently succeed (installing nothing) on a
keyword-shaped string; expand the string vocabulary-relative; require
an absolute identifier or blank-node identifier and store it on the
builder; process the container; commit.  The outer `Option` is `none`
exactly when the commit `expect` panics. -/
def run_for_reverse (env : Env) (active_context : Context)
    (local_context : List (String × Json)) (term : String)
    (defined : List (String × Bool)) (value : List (String × Json)) (reverse : Json)
    (definition : DefinitionBuilder) :
    Option (Except ErrorCode (Context × List (String × Bool))) :=
  if (alistGet value "@id").isSome || (alistGet value "@nest").isSome then
    some (.error .invalidReverseProperty)
  else
    match reverse with
    | .str s =>
      if env.has_form_of_keyword s then
        some (.ok (active_context, defined))
      else
        match env.expand_iri active_context local_context defined true s with
        | .error e => some (.error e)
        | .ok (_, _, none) => some (.error .invalidIriMapping)
        | .ok (a, d, some iri) =>
          if env.is_absolute_ref_or_blank_node_ident iri then
            match process_conatiner value (definition.set_iri iri) with
            | .error e => some (.error e)
            | .ok definition => run_for_reverse_commit a term d definition
          else
            some (.error .invalidIriMapping)
    | _ => some (.error .invalidIriMapping)

/-- The acceptance test of step 14.5 as a boolean: the parsed container
reduces to the null mapping, a singleton `Set`, or a singleton
`Index`. -/
def accept_rev (nc : Nullable Container) : Bool :=
  match nc.map Container.get_single_item with
  | .null => true
  | .value (some .set) => true
  | .value (some .index) => true
  | _ => false

/-- A concrete instantiation of the external `process_context_definition`
collaborator that applies no definition and touches no state, used for
concrete runs that do not exercise the object branch. -/
def id_ctx_def : Context → List String → Bool → Context → List (String × Json) → String →
    LoadState → (Except ErrorCode (Context × List String)) × LoadState :=
  fun _ rc _ result _ _ st => (.ok (result, rc), st)

/-- A remote document whose `@context` member is `null`. -/
def ctx_null_doc : Json := .obj [("@context", .null)]

/-- A concrete environment for witnesses and counterexamples: the
remote-context limit is 1, references resolve to themselves, two
identifiers are loadable (each to a document whose `@context` is
`null`), and the external collaborators are simple concrete
functions. -/
def sample_env : Env where
  max_remote_contexts := 1
  resolve_iri := fun r _ => some r
  load := fun u =>
    if u = "https://a.example/ctx" ∨ u = "https://b.example/ctx" then some ctx_null_doc
    else none
  has_form_of_keyword := fun s => s = "@future"
  is_absolute_ref_or_blank_node_ident := fun s => s = "https://e.example/p" ∨ s = "_:b0"
  expand_iri := fun a _ d _ s => .ok (a, d, if s = "toNull" then none else some s)
  ctx_def := id_ctx_def

/-- Invariant tying the loader-invocation log to the cache: no
identifier was loaded twice, and every loaded identifier is cached. -/
def StInv (st : LoadState) : Prop :=
  st.load_log.Nodup ∧ ∀ i ∈ st.load_log, (alistGet st.cache i).isSome

/-- Cache monotonicity: every cached document at `st` is still cached,
unchanged, at `st'` (nothing is evicted or overwritten). -/
def CacheMono (st st' : LoadState) : Prop :=
  ∀ k v, alistGet st.cache k = some v → alistGet st'.cache k = some v

/-- Well-behavedness of the external `process_context_definition`
collaborator with respect to the shared cache state: it preserves the
load invariant, never evicts or overwrites a cached document, and only
appends to the loader log. -/
def CtxDefOK (env : Env) : Prop :=
  ∀ a rc p r m b st, StInv st →
    StInv (env.ctx_def a rc p r m b st).2 ∧ CacheMono st (env.ctx_def a rc p r m b st).2 ∧
    st.load_log <+: (env.ctx_def a rc p r m b st).2.load_log

theorem alistGet_insert_self {α : Type} (l : List (String × α)) (k : String) (v : α) :
    alistGet (alistInsert l k v) k = some v := by
  induction l with
  | nil => simp [alistInsert, alistGet]
  | cons h t ih =>
    obtain ⟨k', w⟩ := h
    by_cases hk : k' = k
    · simp [alistInsert, hk, alistGet]
    · simp [alistInsert, hk, alistGet, ih]

theorem alistGet_insert_ne {α : Type} (l : List (String × α)) (k k' : String) (v : α)
    (h : k' ≠ k) : alistGet (alistInsert l k v) k' = alistGet l k' := by
  have hk' : k ≠ k' := Ne.symm h
  induction l with
  | nil => simp [alistInsert, alistGet, hk']
  | cons hd t ih =>
    obtain ⟨k0, w⟩ := hd
    by_cases hk : k0 = k
    · subst hk
      simp [alistInsert, alistGet, hk']
    · simp [alistInsert, hk, alistGet, ih]

theorem alistGet_append_of_some {α : Type} {l1 : List (String × α)} (l2 : List (String × α))
    {k : String} {v : α} (h : alistGet l1 k = some v) : alistGet (l1 ++ l2) k = some v := by
  induction l1 with
  | nil => simp [alistGet] at h
  | cons hd t ih =>
    obtain ⟨k0, w⟩ := hd
    by_cases hk : k0 = k
    · simp [alistGet, hk] at h ⊢
      exact h
    · simp [alistGet, hk] at h ⊢
      exact ih h

theorem alistGet_append_of_none {α : Type} {l1 : List (String × α)} (l2 : List (String × α))
    {k : String} (h : alistGet l1 k = none) : alistGet (l1 ++ l2) k = alistGet l2 k := by
  induction l1 with
  | nil => simp
  | cons hd t ih =>
    obtain ⟨k0, w⟩ := hd
    by_cases hk : k0 = k
    · simp [alistGet, hk] at h
    · simp [alistGet, hk] at h ⊢
      exact ih h

theorem process_conatiner_iri (value : List (String × Json)) (b b' : DefinitionBuilder)
    (h : process_conatiner value b = .ok b') : b'.iri = b.iri := by
  unfold process_conatiner at h
  rcases hc : alistGet value "@container" with _ | c <;> simp only [hc] at h
  · simp at h
    simp [h]
  · rcases ht : container_try_from c with _ | nc <;> simp only [ht] at h
    · simp at h
    · rcases nc with _ | cc
      · simp only [Nullable.map] at h
        simp at h
        simp [← h, DefinitionBuilder.set_container]
      · rcases hgs : cc.get_single_item with _ | item <;> simp only [Nullable.map, hgs] at h
        · simp at h
        · rcases item <;> simp at h <;>
            simp [← h, DefinitionBuilder.set_container]

/-- C5: reverse-property container processing: a `@container` value
that does not parse fails with `InvalidContainerMapping`; a parsed
value that is the null mapping, a singleton `Set` or a singleton
`Index` is accepted and stored verbatim on the builder; any other
parsed value fails with `InvalidReverseProperty`; and an absent
`@container` entry succeeds with the builder unchanged. -/
theorem claim_C5 :
    (∀ (value : List (String × Json)) (b : DefinitionBuilder) (c : Json),
      alistGet value "@container" = some c → container_try_from c = none →
      process_conatiner value b = .error .invalidContainerMapping) ∧
    (∀ (value : List (String × Json)) (b : DefinitionBuilder) (c : Json)
      (nc : Nullable Container),
      alistGet value "@container" = some c → container_try_from c = some nc →
      accept_rev nc = true → process_conatiner value b = .ok (b.set_container nc)) ∧
    (∀ (value : List (String × Json)) (b : DefinitionBuilder) (c : Json)
      (nc : Nullable Container),
      alistGet value "@container" = some c → container_try_from c = some nc →
      accept_rev nc = false → process_conatiner value b = .error .invalidReverseProperty) ∧
    (∀ (value : List (String × Json)) (b : DefinitionBuilder),
      alistGet value "@container" = none → process_conatiner value b = .ok b) := by
  refine ⟨?_, ?_, ?_, ?_⟩
  · intro value b c hc ht
    unfold process_conatiner
    simp only [hc, ht]
  · intro value b c nc hc ht hacc
    unfold process_conatiner
    simp only [hc, ht]
    unfold accept_rev at hacc
    rcases nc with _ | cc
    · simp [Nullable.map] at hacc ⊢
    · rcases hgs : cc.get_single_item with _ | item <;>
        simp only [Nullable.map, hgs] at hacc ⊢
      · simp at hacc
      · rcases item <;> simp at hacc ⊢
  · intro value b c nc hc ht hacc
    unfold process_conatiner
    simp only [hc, ht]
    unfold accept_rev at hacc
    rcases nc with _ | cc
    · simp [Nullable.map] at hacc
    · rcases hgs : cc.get_single_item with _ | item
      · simp [Nullable.map, hgs]
      · rcases item <;> simp [Nullable.map, hgs] at hacc ⊢
  · intro value b hc
    unfold process_conatiner
    simp only [hc]

theorem claim_C5_witness :
    process_conatiner [("@container", Json.str "@set")] {} =
      .ok ({ container := some (.value ⟨[.set]⟩) } : DefinitionBuilder) ∧
    process_conatiner [("@container", Json.str "@list")] {} =
      .error .invalidReverseProperty ∧
    process_conatiner [("@container", Json.arr [Json.str "@set", Json.str "@index"])] {} =
      .error .invalidReverseProperty ∧
    process_conatiner [("@container", Json.str "@bogus")] {} =
      .error .invalidContainerMapping :=
  ⟨claim_C5.2.1 _ {} (Json.str "@set") (.value ⟨[.set]⟩) rfl rfl rfl,
   claim_C5.2.2.1 _ {} (Json.str "@list") (.value ⟨[.list]⟩) rfl rfl rfl,
   claim_C5.2.2.1 _ {} (Json.arr [Json.str "@set", Json.str "@index"])
     (.value ⟨[.set, .index]⟩) rfl rfl rfl,
   claim_C5.1 _ {} (Json.str "@bogus") rfl rfl⟩

/-- C6: a local-context entry object carrying `@reverse` that also
carries `@id` or `@nest` makes reverse term-definition creation fail
with `InvalidReverseProperty`, whatever the `@reverse` value and any
`@container` entry are. -/
theorem claim_C6 (env : Env) (active_context : Context)
    (local_context : List (String × Json)) (term : String) (defined : List (String × Bool))
    (value : List (String × Json)) (reverse : Json) (definition : DefinitionBuilder)
    (h : (alistGet value "@id").isSome = true ∨ (alistGet value "@nest").isSome = true) :
    run_for_reverse env active_context local_context term defined value reverse definition =
      some (.error .invalidReverseProperty) := by
  unfold run_for_reverse
  rcases h with h | h <;> simp [h]

theorem claim_C6_witness :
    run_for_reverse sample_env Context.new [] "t" [("t", false)]
      [("@reverse", Json.str "_:b0"), ("@id", Json.str "x"),
       ("@container", Json.str "@set")]
      (Json.str "_:b0") {} = some (.error .invalidReverseProperty) :=
  claim_C6 sample_env Context.new [] "t" [("t", false)] _ (Json.str "_:b0") {}
    (Or.inl rfl)

/-- C7: a keyword-shaped `@reverse` string makes reverse
term-definition creation succeed without installing anything: the
active context and the defined map are returned unchanged and no error
is raised. -/
theorem claim_C7 (env : Env) (active_context : Context)
    (local_context : List (String × Json)) (term : String) (defined : List (String × Bool))
    (value : List (String × Json)) (definition : DefinitionBuilder) (s : String)
    (h1 : alistGet value "@id" = none) (h2 : alistGet value "@nest" = none)
    (hk : env.has_form_of_keyword s = true) :
    run_for_reverse env active_context local_context term defined value (.str s) definition =
      some (.ok (active_context, defined)) := by
  unfold run_for_reverse
  simp [h1, h2, hk]

theorem claim_C7_witness :
    run_for_reverse sample_env (Context.mk [("x", .null)] none) [] "t" [("t", false)]
      [("@reverse", Json.str "@future")] (Json.str "@future") {} =
      some (.ok (Context.mk [("x", .null)] none, [("t", false)])) :=
  claim_C7 sample_env (Context.mk [("x", .null)] none) [] "t" [("t", false)]
    [("@reverse", Json.str "@future")] {} "@future" rfl rfl rfl

/-- C10: the commit step of reverse term-definition creation is total
under the precondition that the defined map already holds an entry for
the term: it installs the built definition (whose reverse flag is
true) under the term, replacing any prior mapping, and flips the
defined-map entry to true, leaving all other keys alone; without the
precondition it panics (modelled as `none`) instead of returning a
typed error, and under the precondition the panic branch is
unreachable. -/
theorem claim_C10 :
    (∀ (a : Context) (term : String) (d : List (String × Bool)) (b : DefinitionBuilder)
      (x : Bool), alistGet d term = some x →
      run_for_reverse_commit a term d b =
        some (.ok (Context.mk
          (alistInsert a.term_definitions term (.value ((b.set_reverse true).build)))
          a.previous_context,
          alistInsert d term true)) ∧
      ((b.set_reverse true).build).reverse = true ∧
      alistGet (alistInsert a.term_definitions term (.value ((b.set_reverse true).build)))
        term = some (.value ((b.set_reverse true).build)) ∧
      alistGet (alistInsert d term true) term = some true ∧
      (∀ k, k ≠ term →
        alistGet (alistInsert a.term_definitions term
          (.value ((b.set_reverse true).build))) k = alistGet a.term_definitions k ∧
        alistGet (alistInsert d term true) k = alistGet d k)) ∧
    (∀ (a : Context) (term : String) (d : List (String × Bool)) (b : DefinitionBuilder),
      alistGet d term = none → run_for_reverse_commit a term d b = none) := by
  constructor
  · intro a term d b x h
    refine ⟨?_, rfl, alistGet_insert_self _ _ _, alistGet_insert_self _ _ _, ?_⟩
    · unfold run_for_reverse_commit
      rw [h]
    · intro k hk
      exact ⟨alistGet_insert_ne _ _ _ _ hk, alistGet_insert_ne _ _ _ _ hk⟩
  · intro a term d b h
    unfold run_for_reverse_commit
    rw [h]

theorem string_step_overflow_iff (env : Env) (rc : List String) (s base : String)
    (st : LoadState) (iri : String) (hres : env.resolve_iri s base = some iri) :
    ((process_single_string_step env rc s base st).1 = .error .contextOverflow ↔
      env.max_remote_contexts ≤ rc.length) := by
  unfold process_single_string_step
  simp only [hres]
  by_cases h : rc.length < env.max_remote_contexts
  · rw [if_pos h]
    constructor
    · intro hc
      exfalso
      rcases hcache : alistGet st.cache iri with _ | doc <;> simp only [hcache] at hc
      · rcases hload : env.load iri with _ | doc <;> simp only [hload] at hc
        · simp at hc
        · rcases hget : doc.get "@context" with _ | c <;> simp only [hget] at hc <;>
            simp at hc
      · rcases hget : doc.get "@context" with _ | c <;> simp only [hget] at hc <;>
          simp at hc
    · intro hle
      omega
  · rw [if_neg h]
    simp only [true_iff]
    omega

theorem chain_step (env : Env) (g : Nat) (u : String) (rest : List Json) (active : Context)
    (base : String) (rc : List String) (st : LoadState)
    (hres : env.resolve_iri = fun r _ => some r)
    (hload : env.load u = some ctx_null_doc)
    (hcache : alistGet st.cache u = none ∨ alistGet st.cache u = some ctx_null_doc)
    (hguard : rc.length < env.max_remote_contexts)
    (hu : u ∉ rc) :
    ∃ st' : LoadState,
      join_entries env (g + 3) (.str u :: rest) active base false true Context.new rc st =
        join_entries env (g + 2) rest active base false true Context.new (rc ++ [u]) st' ∧
      (st'.cache = st.cache ∨ st'.cache = st.cache ++ [(u, ctx_null_doc)]) := by
  rcases hcache with hc | hc
  · refine ⟨⟨st.cache ++ [(u, ctx_null_doc)], st.load_log ++ [u]⟩, ?_, Or.inr rfl⟩
    have hstep : process_single_string_step env rc u base st =
        (.ok (Json.null, u, rc ++ [u]),
          ⟨st.cache ++ [(u, ctx_null_doc)], st.load_log ++ [u]⟩) := by
      unfold process_single_string_step
      simp [hres, if_pos hguard, rc_insert, hu, hc, hload, ctx_null_doc, Json.get, alistGet]
    simp only [join_entries, hstep]
    rfl
  · refine ⟨st, ?_, Or.inl rfl⟩
    have hstep : process_single_string_step env rc u base st =
        (.ok (Json.null, u, rc ++ [u]), st) := by
      unfold process_single_string_step
      simp [hres, if_pos hguard, rc_insert, hu, hc, ctx_null_doc, Json.get, alistGet]
    simp only [join_entries, hstep]
    rfl

theorem chain_ok (env : Env) (hres : env.resolve_iri = fun r _ => some r) :
    ∀ (us : List String) (fuel : Nat) (active : Context) (base : String)
      (rc : List String) (st : LoadState),
    us.Nodup → (∀ u ∈ us, u ∉ rc) → (∀ u ∈ us, env.load u = some ctx_null_doc) →
    (∀ u ∈ us, alistGet st.cache u = none ∨ alistGet st.cache u = some ctx_null_doc) →
    rc.length + us.length ≤ env.max_remote_contexts →
    us.length + 2 ≤ fuel →
    ∃ st', join_entries env fuel (us.map .str) active base false true Context.new rc st =
      (.ok (Context.new, rc ++ us), st') := by
  intro us
  induction us with
  | nil =>
    intro fuel active base rc st _ _ _ _ _ hfuel
    obtain ⟨g, rfl⟩ : ∃ g, fuel = g + 1 := ⟨fuel - 1, by omega⟩
    exact ⟨st, by simp [join_entries]⟩
  | cons u us ih =>
    intro fuel active base rc st hnd hfresh hloads hcache hlen hfuel
    obtain ⟨g, rfl⟩ : ∃ g, fuel = g + 3 := ⟨fuel - 3, by simp at hfuel; omega⟩
    obtain ⟨st1, heq, hcc⟩ := chain_step env g u (us.map .str) active base rc st hres
      (hloads u (by simp)) (hcache u (by simp)) (by simp at hlen; omega)
      (hfresh u (by simp))
    rw [List.map_cons, heq]
    have hvne : ∀ v ∈ us, v ≠ u := by
      intro v hv hvu
      exact (List.nodup_cons.mp hnd).1 (hvu ▸ hv)
    have hcache1 : ∀ v ∈ us,
        alistGet st1.cache v = none ∨ alistGet st1.cache v = some ctx_null_doc := by
      intro v hv
      rcases hcc with hcc | hcc
      · rw [hcc]
        exact hcache v (by simp [hv])
      · rw [hcc]
        rcases hcache v (by simp [hv]) with hv0 | hv0
        · rw [alistGet_append_of_none _ hv0]
          simp [alistGet, Ne.symm (hvne v hv)]
        · exact Or.inr (alistGet_append_of_some _ hv0)
    obtain ⟨st2, h2⟩ := ih (g + 2) active base (rc ++ [u]) st1 (List.nodup_cons.mp hnd).2
      (by
        intro v hv hmem
        rcases List.mem_append.mp hmem with hm | hm
        · exact hfresh v (List.mem_cons_of_mem _ hv) hm
        · exact hvne v hv (by simpa using hm))
      (by intro v hv; exact hloads v (by simp [hv]))
      hcache1
      (by simp at hlen ⊢; omega)
      (by simp at hfuel; omega)
    refine ⟨st2, ?_⟩
    rw [h2]
    simp

theorem chain_fail (env : Env) (hres : env.resolve_iri = fun r _ => some r) :
    ∀ (us : List String) (w : String) (fuel : Nat) (active : Context) (base : String)
      (rc : List String) (st : LoadState),
    (us ++ [w]).Nodup → (∀ u ∈ us ++ [w], u ∉ rc) →
    (∀ u ∈ us, env.load u = some ctx_null_doc) →
    (∀ u ∈ us, alistGet st.cache u = none ∨ alistGet st.cache u = some ctx_null_doc) →
    rc.length + us.length = env.max_remote_contexts →
    us.length + 3 ≤ fuel →
    ∃ st',
      join_entries env fuel ((us ++ [w]).map .str) active base false true Context.new rc st =
        (.error (.code .contextOverflow), st') := by
  intro us
  induction us with
  | nil =>
    intro w fuel active base rc st _ _ _ _ hlen hfuel
    obtain ⟨g, rfl⟩ : ∃ g, fuel = g + 1 := ⟨fuel - 1, by omega⟩
    refine ⟨st, ?_⟩
    have hstep : process_single_string_step env rc w base st = (.error .contextOverflow, st) := by
      unfold process_single_string_step
      rw [hres]
      simp only []
      rw [if_neg (by simp at hlen; omega)]
    simp only [List.nil_append, List.map_cons, List.map_nil, join_entries, hstep]
  | cons u us ih =>
    intro w fuel active base rc st hnd hfresh hloads hcache hlen hfuel
    obtain ⟨g, rfl⟩ : ∃ g, fuel = g + 3 := ⟨fuel - 3, by simp at hfuel; omega⟩
    obtain ⟨st1, heq, hcc⟩ := chain_step env g u ((us ++ [w]).map .str) active base rc st hres
      (hloads u (by simp)) (hcache u (by simp)) (by simp at hlen; omega)
      (hfresh u (by simp))
    rw [List.cons_append, List.map_cons, heq]
    have hnd' : (u :: (us ++ [w])).Nodup := by simpa using hnd
    have hvne : ∀ v ∈ us ++ [w], v ≠ u := by
      intro v hv hvu
      exact (List.nodup_cons.mp hnd').1 (hvu ▸ hv)
    have hcache1 : ∀ v ∈ us,
        alistGet st1.cache v = none ∨ alistGet st1.cache v = some ctx_null_doc := by
      intro v hv
      rcases hcc with hcc | hcc
      · rw [hcc]
        exact hcache v (by simp [hv])
      · rw [hcc]
        rcases hcache v (by simp [hv]) with hv0 | hv0
        · rw [alistGet_append_of_none _ hv0]
          simp [alistGet, Ne.symm (hvne v (by simp [hv]))]
        · exact Or.inr (alistGet_append_of_some _ hv0)
    obtain ⟨st2, h2⟩ := ih w (g + 2) active base (rc ++ [u]) st1 (List.nodup_cons.mp hnd').2
      (by
        intro v hv hmem
        rcases List.mem_append.mp hmem with hm | hm
        · exact hfresh v (by simpa using Or.inr hv) hm
        · exact hvne v hv (by simpa using hm))
      (by intro v hv; exact hloads v (by simp [hv]))
      hcache1
      (by simp at hlen ⊢; omega)
      (by simp at hfuel; omega)
    exact ⟨st2, h2⟩

/-- C1: the string-entry overflow guard fails with `ContextOverflow`
exactly when entering one more remote context would exceed the
configured maximum remote-context count; in particular, for a chain of
N distinct remote-context string entries with the limit configured to
N-1, the merge of the first N-1 entries succeeds (staying within the
limit raises no `ContextOverflow`) while the merge of all N entries
fails with `ContextOverflow` on the Nth. -/
theorem claim_C1 :
    (∀ (env : Env) (rc : List String) (s base : String) (st : LoadState) (iri : String),
      env.resolve_iri s base = some iri →
      ((process_single_string_step env rc s base st).1 = .error .contextOverflow ↔
        env.max_remote_contexts ≤ rc.length)) ∧
    (∀ (env : Env) (us : List String) (w : String) (fuel : Nat) (base : String),
      env.resolve_iri = (fun r _ => some r) →
      (us ++ [w]).Nodup →
      (∀ u ∈ us, env.load u = some ctx_null_doc) →
      env.max_remote_contexts = us.length →
      us.length + 3 ≤ fuel →
      join_value env fuel Context.new (.arr ((us ++ [w]).map .str)) base {} =
        .error (.code .contextOverflow) ∧
      join_value env fuel Context.new (.arr (us.map .str)) base {} = .ok Context.new) := by
  constructor
  · intro env rc s base st iri h
    exact string_step_overflow_iff env rc s base st iri h
  · intro env us w fuel base hres hnd hloads hmax hfuel
    constructor
    · obtain ⟨st', h⟩ := chain_fail env hres us w fuel Context.new base [] ⟨[], []⟩ hnd
        (by intro u _ hm; simp at hm) hloads (by intro u _; exact Or.inl rfl)
        (by simp [hmax]) hfuel
      have hjv : join_value env fuel Context.new (.arr ((us ++ [w]).map .str)) base {} =
          Except.map Prod.fst (join_entries env fuel ((us ++ [w]).map .str) Context.new base
            false true Context.new [] ⟨[], []⟩).1 := rfl
      rw [hjv, h]
      rfl
    · obtain ⟨st', h⟩ := chain_ok env hres us fuel Context.new base [] ⟨[], []⟩
        (List.Nodup.of_append_left hnd)
        (by intro u _ hm; simp at hm) hloads (by intro u _; exact Or.inl rfl)
        (by simp [hmax]) (by omega)
      have hjv : join_value env fuel Context.new (.arr (us.map .str)) base {} =
          Except.map Prod.fst (join_entries env fuel (us.map .str) Context.new base
            false true Context.new [] ⟨[], []⟩).1 := rfl
      rw [hjv, h]
      rfl

theorem claim_C1_witness :
    join_value sample_env 4 Context.new
      (.arr [.str "https://a.example/ctx", .str "https://b.example/ctx"]) "x" {} =
      .error (.code .contextOverflow) ∧
    join_value sample_env 4 Context.new (.arr [.str "https://a.example/ctx"]) "x" {} =
      .ok Context.new := by
  have h := claim_C1.2 sample_env ["https://a.example/ctx"] "https://b.example/ctx" 4 "x"
    rfl (by decide) (by intro u hu; simp at hu; subst hu; rfl) rfl (by simp)
  exact ⟨h.1, h.2⟩

/-- C2 (amended): within one merge call, the entry loop is a strict
left-to-right fold: processing `xs ++ ys` equals processing `xs` first
— each entry fully applied, or the whole call failed, before the next
— and then continuing with `ys` from the carried running result,
visited set and cache, under the same original active context and
flags.  (The unamended form, two independent top-level `merge` calls,
fails because those reset the per-call visited set and cache; see the
counterexample.) -/
theorem claim_C2 (env : Env) :
    ∀ (xs ys : List Json) (fuel : Nat) (active_context : Context) (base : String)
      (op p : Bool) (result : Context) (rc : List String) (st : LoadState),
    join_entries env fuel (xs ++ ys) active_context base op p result rc st =
      (match join_entries env fuel xs active_context base op p result rc st with
       | (.ok (r, rc'), st') =>
         join_entries env (fuel - xs.length) ys active_context base op p r rc' st'
       | (.error e, st') => (.error e, st')) := by
  intro xs
  induction xs with
  | nil =>
    intro ys fuel active base op p result rc st
    cases fuel with
    | zero => simp [join_entries]
    | succ f => simp [join_entries]
  | cons x xs ih =>
    intro ys fuel active base op p result rc st
    cases fuel with
    | zero => simp [join_entries]
    | succ f =>
      simp only [List.cons_append, join_entries, List.length_cons, Nat.succ_sub_succ]
      cases x with
      | null =>
        rcases h : process_single_null active op p result with e | r <;> simp only [h]
        exact ih ys f active base op p r rc st
      | str s =>
        rcases h : process_single_string_step env rc s base st with ⟨res, st1⟩
        simp only [h]
        cases res with
        | error e => rfl
        | ok tri =>
          obtain ⟨inner, iri, rc'⟩ := tri
          rcases hj : join_entries env f (to_ref_array inner) result iri op
              (get_propagate inner p)
              (if !(get_propagate inner p) && result.has_previous_context then
                Context.mk result.term_definitions (some result)
              else result) rc' st1 with ⟨res2, st2⟩
          simp only [hj]
          cases res2 with
          | error e => rfl
          | ok pr =>
            obtain ⟨r', rcI⟩ := pr
            exact ih ys f active base op p r' rc' st2
      | obj m =>
        rcases h : env.ctx_def active rc p result m base st with ⟨res, st1⟩
        simp only [h]
        cases res with
        | error e => rfl
        | ok pr =>
          obtain ⟨r', rc'⟩ := pr
          exact ih ys f active base op p r' rc' st1
      | bool b => rfl
      | num n => rfl
      | arr l => rfl

/-- C2 fails as stated: with the remote-context limit configured to 1,
merging the two-element array of two distinct remote references into
the empty context overflows on the second entry, while two successive
top-level merge calls (each with a fresh visited set) both succeed. -/
theorem claim_C2_counterexample :
    join_value sample_env 3 Context.new
      (.arr [.str "https://a.example/ctx", .str "https://b.example/ctx"]) "x" {} =
      .error (.code .contextOverflow) ∧
    join_value sample_env 3 Context.new (.str "https://a.example/ctx") "x" {} =
      .ok Context.new ∧
    join_value sample_env 3 Context.new (.str "https://b.example/ctx") "x" {} =
      .ok Context.new ∧
    (Except.error (JoinError.code .contextOverflow) : Except JoinError Context) ≠
      .ok Context.new :=
  ⟨rfl, rfl, rfl, fun h => Except.noConfusion h⟩

/-- C3 (amended): merging a single null entry under
`override_protected` fails with `InvalidContextNullification` exactly
when overriding is off and the active context has a protected term;
otherwise it yields an empty context whose previous context is: none
when propagate is true; the active context `A` when propagate is false
and `A` has no previous context; and — because step 3 first rewrites
the previous-context link of the running clone to the full `A` — `A`
with its previous-context field replaced by `A` itself, when propagate
is false and `A` already has a previous context. -/
theorem claim_C3 (env : Env) (fuel : Nat) (A : Context) (op p : Bool) (base : String) :
    join_value env (fuel + 2) A .null base ⟨[], op, p⟩ =
      (if !op && A.has_protected_term_definition then
        .error (.code .invalidContextNullification)
      else
        .ok (Context.mk [] (if p then none
          else some (if A.has_previous_context then
            Context.mk A.term_definitions (some A) else A)))) := by
  unfold join_value join_value_impl
  have hp : get_propagate Json.null p = p := rfl
  have ha : to_ref_array Json.null = [Json.null] := rfl
  rw [hp, ha]
  simp only [join_entries]
  unfold process_single_null
  cases hc : (!op && A.has_protected_term_definition) with
  | true => simp [Except.map]
  | false =>
    simp only [Bool.false_eq_true, if_false, OptionalParams.propagate]
    cases p with
    | true => simp [join_entries, Except.map]
    | false =>
      cases hprev : A.has_previous_context with
      | true => simp [hprev, join_entries, Except.map]
      | false => simp [hprev, join_entries, Except.map]

/-- C3 fails as stated for an active context that already has a
previous context: with `override_protected` true and propagate false,
merging null into `A = ⟨∅, some ∅⟩` yields an empty context whose
previous context is `A` with its previous-context field replaced by
`A`, which differs from `A`. -/
theorem claim_C3_counterexample :
    join_value sample_env 2 (Context.mk [] (some Context.new)) .null "x"
      ⟨[], true, false⟩ =
      .ok (Context.mk []
        (some (Context.mk [] (some (Context.mk [] (some Context.new)))))) ∧
    (Context.mk []
        (some (Context.mk [] (some (Context.mk [] (some Context.new)))))).previous_context ≠
      some (Context.mk [] (some Context.new)) :=
  ⟨rfl, by
    intro h
    injection h with h1
    injection h1 with h2 h3
    injection h3 with h4
    injection h4 with h5 h6
    injection h6⟩

/-- C8: a boolean `@propagate` entry of an object local context
replaces the inherited propagate flag for the remainder of the call
(the inherited flag becomes irrelevant), while a non-boolean
`@propagate` entry, or an absent one, keeps the inherited flag with no
error; concretely, with an identity object handler a local context
with a non-boolean `@propagate` merges successfully without effect,
and a boolean `false` one chains the previous context. -/
theorem claim_C8 :
    (∀ (m : List (String × Json)) (p b : Bool),
      alistGet m "@propagate" = some (.bool b) → get_propagate (.obj m) p = b) ∧
    (∀ (m : List (String × Json)) (p : Bool) (v : Json),
      alistGet m "@propagate" = some v → (∀ b, v ≠ Json.bool b) →
      get_propagate (.obj m) p = p) ∧
    (∀ (m : List (String × Json)) (p : Bool),
      alistGet m "@propagate" = none → get_propagate (.obj m) p = p) ∧
    (∀ (env : Env) (fuel : Nat) (A : Context) (m : List (String × Json)) (base : String)
      (rc : List String) (op : Bool) (st : LoadState) (p p' b : Bool),
      alistGet m "@propagate" = some (.bool b) →
      join_value_impl env fuel A (.obj m) base rc op p st =
        join_value_impl env fuel A (.obj m) base rc op p' st) ∧
    (join_value sample_env 2 Context.new (.obj [("@propagate", .str "x")]) "x" {} =
      .ok Context.new) ∧
    (join_value sample_env 2 (Context.mk [] (some Context.new))
      (.obj [("@propagate", .bool false)]) "x" {} =
      .ok (Context.mk [] (some (Context.mk [] (some Context.new))))) := by
  have hbool : ∀ (m : List (String × Json)) (p b : Bool),
      alistGet m "@propagate" = some (.bool b) → get_propagate (.obj m) p = b := by
    intro m p b h
    simp only [get_propagate, Json.get, h]
  refine ⟨hbool, ?_, ?_, ?_, rfl, rfl⟩
  · intro m p v h hv
    simp only [get_propagate, Json.get, h]
    cases v <;> first | rfl | exact absurd rfl (hv _)
  · intro m p h
    simp only [get_propagate, Json.get, h]
  · intro env fuel A m base rc op st p p' b h
    unfold join_value_impl
    rw [hbool m p b h, hbool m p' b h]

theorem claim_C8_witness :
    get_propagate (.obj [("@propagate", .bool false)]) true = false ∧
    get_propagate (.obj [("@propagate", .str "x")]) true = true :=
  ⟨claim_C8.1 [("@propagate", .bool false)] true false rfl,
   claim_C8.2.1 [("@propagate", .str "x")] true (.str "x") rfl
     (fun b h => Json.noConfusion h)⟩

theorem cacheMono_trans {a b c : LoadState} (h1 : CacheMono a b) (h2 : CacheMono b c) :
    CacheMono a c :=
  fun k v hv => h2 k v (h1 k v hv)

theorem string_step_preserve (env : Env) (rc : List String) (s base : String)
    (st : LoadState) (h : StInv st) :
    StInv (process_single_string_step env rc s base st).2 ∧
    CacheMono st (process_single_string_step env rc s base st).2 ∧
    st.load_log <+: (process_single_string_step env rc s base st).2.load_log := by
  unfold process_single_string_step
  rcases hres : env.resolve_iri s base with _ | iri <;> simp only [hres]
  · exact ⟨h, fun k v hv => hv, List.prefix_refl _⟩
  · by_cases hg : rc.length < env.max_remote_contexts
    · rw [if_pos hg]
      rcases hc : alistGet st.cache iri with _ | doc <;> simp only [hc]
      · rcases hl : env.load iri with _ | doc <;> simp only [hl]
        · exact ⟨h, fun k v hv => hv, List.prefix_refl _⟩
        · have hkeys : iri ∉ st.load_log := by
            intro hmem
            have hsome := h.2 iri hmem
            simp [hc] at hsome
          rcases hget : doc.get "@context" with _ | c <;> simp only [hget] <;>
          · refine ⟨⟨?_, ?_⟩, ?_, ?_⟩
            · rw [List.nodup_append]
              refine ⟨h.1, List.nodup_singleton _, ?_⟩
              intro x hx hx'
              simp at hx'
              subst hx'
              exact hkeys hx
            · intro i hi
              rcases List.mem_append.mp hi with hi | hi
              · have hsome := h.2 i hi
                rcases Option.isSome_iff_exists.mp hsome with ⟨v, hv⟩
                simp [alistGet_append_of_some _ hv]
              · simp at hi
                subst hi
                rw [alistGet_append_of_none _ hc]
                simp [alistGet]
            · intro k v hv
              exact alistGet_append_of_some _ hv
            · exact List.prefix_append _ _
      · rcases hget : doc.get "@context" with _ | c <;> simp only [hget] <;>
          exact ⟨h, fun k v hv => hv, List.prefix_refl _⟩
    · rw [if_neg hg]
      exact ⟨h, fun k v hv => hv, List.prefix_refl _⟩

theorem join_entries_preserve (env : Env) (hctx : CtxDefOK env) :
    ∀ (fuel : Nat) (entries : List Json) (active : Context) (base : String)
      (op p : Bool) (result : Context) (rc : List String) (st : LoadState), StInv st →
      StInv (join_entries env fuel entries active base op p result rc st).2 ∧
      CacheMono st (join_entries env fuel entries active base op p result rc st).2 ∧
      st.load_log <+: (join_entries env fuel entries active base op p result rc st).2.load_log := by
  intro fuel
  induction fuel with
  | zero =>
    intro entries active base op p result rc st h
    exact ⟨h, fun k v hv => hv, List.prefix_refl _⟩
  | succ f ih =>
    intro entries active base op p result rc st h
    cases entries with
    | nil => exact ⟨h, fun k v hv => hv, List.prefix_refl _⟩
    | cons c rest =>
      cases c with
      | null =>
        rcases hn : process_single_null active op p result with e | r <;>
          simp only [join_entries, hn]
        · exact ⟨h, fun k v hv => hv, List.prefix_refl _⟩
        · exact ih rest active base op p r rc st h
      | str s =>
        have hs := string_step_preserve env rc s base st h
        rcases hstep : process_single_string_step env rc s base st with ⟨res, st1⟩
        rw [hstep] at hs
        simp only [join_entries, hstep]
        cases res with
        | error e => exact hs
        | ok tri =>
          obtain ⟨inner, iri, rc'⟩ := tri
          have hi := ih (to_ref_array inner) result iri op (get_propagate inner p)
            (if !(get_propagate inner p) && result.has_previous_context then
              Context.mk result.term_definitions (some result) else result) rc' st1 hs.1
          rcases hj : join_entries env f (to_ref_array inner) result iri op
              (get_propagate inner p)
              (if !(get_propagate inner p) && result.has_previous_context then
                Context.mk result.term_definitions (some result) else result)
              rc' st1 with ⟨res2, st2⟩
          rw [hj] at hi
          simp only [hj]
          cases res2 with
          | error e =>
            exact ⟨hi.1, cacheMono_trans hs.2.1 hi.2.1, hs.2.2.trans hi.2.2⟩
          | ok pr =>
            obtain ⟨r', rcI⟩ := pr
            have hcont := ih rest active base op p r' rc' st2 hi.1
            exact ⟨hcont.1, cacheMono_trans hs.2.1 (cacheMono_trans hi.2.1 hcont.2.1),
              (hs.2.2.trans hi.2.2).trans hcont.2.2⟩
      | obj m =>
        have hd := hctx active rc p result m base st h
        rcases hstep : env.ctx_def active rc p result m base st with ⟨res, st1⟩
        rw [hstep] at hd
        simp only [join_entries, hstep]
        cases res with
        | error e => exact hd
        | ok pr =>
          obtain ⟨r', rc'⟩ := pr
          have hcont := ih rest active base op p r' rc' st1 hd.1
          exact ⟨hcont.1, cacheMono_trans hd.2.1 hcont.2.1, hd.2.2.trans hcont.2.2⟩
      | bool b => exact ⟨h, fun k v hv => hv, List.prefix_refl _⟩
      | num n => exact ⟨h, fun k v hv => hv, List.prefix_refl _⟩
      | arr l => exact ⟨h, fun k v hv => hv, List.prefix_refl _⟩

/-- C9: a string entry whose resolved identifier is already in the
per-call cache reuses the cached document without invoking the loader
(the state, including the loader log, is returned untouched); across a
whole merge run, with a well-behaved object-entry handler, the load
invariant is preserved and the cache is never evicted or overwritten;
and a merge call started from the fresh per-call state invokes the
loader at most once per distinct identifier (its loader log has no
duplicates). -/
theorem claim_C9 :
    (∀ (env : Env) (rc : List String) (s base : String) (st : LoadState) (iri : String)
      (doc : Json),
      env.resolve_iri s base = some iri → alistGet st.cache iri = some doc →
      rc.length < env.max_remote_contexts →
      process_single_string_step env rc s base st =
        ((match doc.get "@context" with
          | some c => .ok (c, iri, rc_insert iri rc)
          | none => .error .invalidRemoteContext), st)) ∧
    (∀ (env : Env) (fuel : Nat) (entries : List Json) (active : Context) (base : String)
      (op p : Bool) (result : Context) (rc : List String) (st : LoadState),
      CtxDefOK env → StInv st →
      StInv (join_entries env fuel entries active base op p result rc st).2 ∧
      CacheMono st (join_entries env fuel entries active base op p result rc st).2) ∧
    (∀ (env : Env) (fuel : Nat) (A : Context) (lc : Json) (base : String)
      (rc : List String) (op p : Bool), CtxDefOK env →
      (join_value_impl env fuel A lc base rc op p ⟨[], []⟩).2.load_log.Nodup) := by
  refine ⟨?_, ?_, ?_⟩
  · intro env rc s base st iri doc hres hc hg
    unfold process_single_string_step
    simp only [hres]
    rw [if_pos hg]
    simp only [hc]
    rcases hget : doc.get "@context" with _ | c <;> simp only [hget]
  · intro env fuel entries active base op p result rc st hctx h
    have hp := join_entries_preserve env hctx fuel entries active base op p result rc st h
    exact ⟨hp.1, hp.2.1⟩
  · intro env fuel A lc base rc op p hctx
    have h0 : StInv ⟨[], []⟩ := ⟨List.nodup_nil, by intro i hi; simp at hi⟩
    have hp := join_entries_preserve env hctx fuel (to_ref_array lc) A base op
      (get_propagate lc p)
      (if !(get_propagate lc p) && A.has_previous_context then
        Context.mk A.term_definitions (some A) else A) rc ⟨[], []⟩ h0
    exact hp.1.1

theorem claim_C9_witness :
    process_single_string_step sample_env [] "https://a.example/ctx" "x"
      ⟨[("https://a.example/ctx", ctx_null_doc)], []⟩ =
      (.ok (Json.null, "https://a.example/ctx", ["https://a.example/ctx"]),
        ⟨[("https://a.example/ctx", ctx_null_doc)], []⟩) ∧
    (join_value_impl sample_env 3 Context.new
      (.arr [.str "https://a.example/ctx", .str "https://a.example/ctx"]) "x" [] false true
      ⟨[], []⟩).2.load_log.Nodup :=
  ⟨claim_C9.1 sample_env [] "https://a.example/ctx" "x"
      ⟨[("https://a.example/ctx", ctx_null_doc)], []⟩ "https://a.example/ctx"
      ctx_null_doc rfl rfl (by decide),
   claim_C9.2.2 sample_env 3 Context.new
      (.arr [.str "https://a.example/ctx", .str "https://a.example/ctx"]) "x" [] false true
      (by
        intro a rc p r m b st hst
        exact ⟨hst, fun k v hv => hv, List.prefix_refl _⟩)⟩

/-- C4: in reverse term-definition creation (once the `@id`/`@nest`
guard passed), a non-string `@reverse` value fails with
`InvalidIriMapping`; a non-keyword string is handed to the external
expansion with vocabulary-relative expansion enabled, and the call
fails with `InvalidIriMapping` when expansion yields an explicit
no-value or when the expanded value is rejected by the
absolute-or-blank-node classifier; otherwise the expanded value is
stored as the identifier mapping of the installed definition. -/
theorem claim_C4 :
    (∀ (env : Env) (a : Context) (lc : List (String × Json)) (term : String)
      (d : List (String × Bool)) (value : List (String × Json)) (v : Json)
      (b : DefinitionBuilder),
      alistGet value "@id" = none → alistGet value "@nest" = none →
      (∀ s, v ≠ Json.str s) →
      run_for_reverse env a lc term d value v b = some (.error .invalidIriMapping)) ∧
    (∀ (env : Env) (a : Context) (lc : List (String × Json)) (term : String)
      (d : List (String × Bool)) (value : List (String × Json)) (s : String)
      (b : DefinitionBuilder) (a' : Context) (d' : List (String × Bool)),
      alistGet value "@id" = none → alistGet value "@nest" = none →
      env.has_form_of_keyword s = false →
      env.expand_iri a lc d true s = .ok (a', d', none) →
      run_for_reverse env a lc term d value (.str s) b =
        some (.error .invalidIriMapping)) ∧
    (∀ (env : Env) (a : Context) (lc : List (String × Json)) (term : String)
      (d : List (String × Bool)) (value : List (String × Json)) (s : String)
      (b : DefinitionBuilder) (a' : Context) (d' : List (String × Bool)) (iri : String),
      alistGet value "@id" = none → alistGet value "@nest" = none →
      env.has_form_of_keyword s = false →
      env.expand_iri a lc d true s = .ok (a', d', some iri) →
      env.is_absolute_ref_or_blank_node_ident iri = false →
      run_for_reverse env a lc term d value (.str s) b =
        some (.error .invalidIriMapping)) ∧
    (∀ (env : Env) (a : Context) (lc : List (String × Json)) (term : String)
      (d : List (String × Bool)) (value : List (String × Json)) (s : String)
      (b : DefinitionBuilder) (a' : Context) (d' : List (String × Bool)) (iri : String),
      alistGet value "@id" = none → alistGet value "@nest" = none →
      env.has_form_of_keyword s = false →
      env.expand_iri a lc d true s = .ok (a', d', some iri) →
      env.is_absolute_ref_or_blank_node_ident iri = true →
      (run_for_reverse env a lc term d value (.str s) b =
        (match process_conatiner value (b.set_iri iri) with
         | .error e => some (.error e)
         | .ok b' => run_for_reverse_commit a' term d' b') ∧
       ∀ (a2 : Context) (d2 : List (String × Bool)),
         run_for_reverse env a lc term d value (.str s) b = some (.ok (a2, d2)) →
         ∃ td : TermDefinition,
           alistGet a2.term_definitions term = some (.value td) ∧ td.iri = some iri ∧
           td.reverse = true)) := by
  refine ⟨?_, ?_, ?_, ?_⟩
  · intro env a lc term d value v b h1 h2 hv
    unfold run_for_reverse
    simp only [h1, h2, Option.isSome_none, Bool.or_self, Bool.false_eq_true, if_false]
  · intro env a lc term d value s b a' d' h1 h2 hk hexp
    unfold run_for_reverse
    simp only [h1, h2, Option.isSome_none, Bool.or_self, Bool.false_eq_true, if_false, hk,
      hexp]
  · intro env a lc term d value s b a' d' iri h1 h2 hk hexp habs
    unfold run_for_reverse
    simp only [h1, h2, Option.isSome_none, Bool.or_self, Bool.false_eq_true, if_false, hk,
      hexp, habs]
  · intro env a lc term d value s b a' d' iri h1 h2 hk hexp habs
    have hrun : run_for_reverse env a lc term d value (.str s) b =
        (match process_conatiner value (b.set_iri iri) with
         | .error e => some (.error e)
         | .ok b' => run_for_reverse_commit a' term d' b') := by
      unfold run_for_reverse
      simp only [h1, h2, Option.isSome_none, Bool.or_self, Bool.false_eq_true, if_false,
        hk, hexp, habs]
      simp
    refine ⟨hrun, ?_⟩
    intro a2 d2 hok
    rw [hrun] at hok
    rcases hpc : process_conatiner value (b.set_iri iri) with e | b' <;>
      simp only [hpc] at hok
    · simp at hok
    · unfold run_for_reverse_commit at hok
      rcases hd : alistGet d' term with _ | x <;> simp only [hd] at hok
      · simp at hok
      · have hinj : a2 = Context.mk
            (alistInsert a'.term_definitions term (.value ((b'.set_reverse true).build)))
            a'.previous_context := by
          simp at hok
          exact hok.1.symm
        refine ⟨(b'.set_reverse true).build, ?_, ?_, rfl⟩
        · rw [hinj]
          simpa [Context.term_definitions] using
            alistGet_insert_self a'.term_definitions term
              (.value ((b'.set_reverse true).build))
        · have : b'.iri = (b.set_iri iri).iri := process_conatiner_iri value _ b' hpc
          simp [DefinitionBuilder.build, DefinitionBuilder.set_reverse, this,
            DefinitionBuilder.set_iri]

theorem claim_C4_witness :
    run_for_reverse sample_env Context.new [] "t" [("t", false)] [] Json.null {} =
      some (.error .invalidIriMapping) ∧
    run_for_reverse sample_env Context.new [] "t" [("t", false)] [] (.str "toNull") {} =
      some (.error .invalidIriMapping) ∧
    run_for_reverse sample_env Context.new [] "t" [("t", false)] [] (.str "nonsense") {} =
      some (.error .invalidIriMapping) ∧
    run_for_reverse sample_env Context.new [] "t" [("t", false)] []
      (.str "https://e.example/p") {} =
      some (.ok (Context.mk
        [("t", .value ⟨some "https://e.example/p", true, none, false⟩)] none,
        [("t", true)])) :=
  ⟨(claim_C4.1) sample_env Context.new [] "t" [("t", false)] [] Json.null {} rfl rfl
     (fun s h => Json.noConfusion h),
   (claim_C4.2.1) sample_env Context.new [] "t" [("t", false)] [] "toNull" {}
     Context.new [("t", false)] rfl rfl rfl rfl,
   (claim_C4.2.2.1) sample_env Context.new [] "t" [("t", false)] [] "nonsense" {}
     Context.new [("t", false)] "nonsense" rfl rfl rfl rfl rfl,
   ((claim_C4.2.2.2) sample_env Context.new [] "t" [("t", false)] []
     "https://e.example/p" {} Context.new [("t", false)] "https://e.example/p"
     rfl rfl rfl rfl rfl).1⟩

theorem claim_C10_witness :
    run_for_reverse_commit (Context.mk [("t", .null)] none) "t" [("t", false), ("u", true)]
      { iri := some "_:b0" } =
      some (.ok (Context.mk
        [("t", .value ⟨some "_:b0", true, none, false⟩)] none,
        [("t", true), ("u", true)])) ∧
    run_for_reverse_commit Context.new "t" [] { iri := some "_:b0" } = none :=
  ⟨(claim_C10.1 (Context.mk [("t", .null)] none) "t" [("t", false), ("u", true)]
      { iri := some "_:b0" } false rfl).1,
   claim_C10.2 Context.new "t" [] { iri := some "_:b0" } rfl⟩

end JsonLd
